import Mathlib

/-!
# sops: data-key protection layer

A shallow embedding of `keysources.go` (the KMS descriptor, its session
establishment and the multi-entry `KMSKeySource` orchestrator) and of `sops.go`
(`Metadata`, `KeySource` and the aggregate operations on master keys), followed
by the properties established about them.

Conventions of the embedding:

* a Go `string` and a Go `[]byte` are both finite sequences of code units; the
  conversions `[]byte(s)` and `string(b)` copy the sequence unchanged, so both
  are represented by `GoString` and the conversions are the identity;
* the operating system, the AWS SDK and `encoding/base64` are outside the
  repository: they are the fields of `Env`, arbitrary functions of their
  arguments, and every call that leaves the process is recorded in a call log;
* a Go function returning `(T, error)` with exactly one meaningful component is
  an `Except GoError T`; where both components are observable the pair is kept.
-/

namespace Sops

/-- The representation of Go `string` and `[]byte` values. -/
abbrev GoString := List Char

/-! ## The `regexp` fragment used by `createSession` -/

/-- One piece of an anchored pattern: literal text, or a capturing group `(C+)`
holding a greedy repetition, one or more times, of a character class `C`. -/
inductive Item where
  | lit (text : GoString)
  | group (cls : Char → Bool)

/-- Leftmost-first choice of a repetition count: the counts `n, n-1, ..., 1`
are tried in this order and the first one for which `f` succeeds wins. -/
def tryLens {β : Type} (f : Nat → Option β) : Nat → Option β
  | 0 => none
  | n + 1 =>
    match f (n + 1) with
    | some r => some r
    | none => tryLens f n

/-- Backtracking match of a sequence of items against the whole remaining
input (the pattern ends in `$`); the result lists the text of each group. -/
def matchItems : List Item → GoString → Option (List GoString)
  | [], s => if s.isEmpty then some [] else none
  | Item.lit text :: rest, s =>
    if text.isPrefixOf s then matchItems rest (s.drop text.length) else none
  | Item.group cls :: rest, s =>
    tryLens (fun n => (matchItems rest (s.drop n)).map (fun caps => s.take n :: caps))
      (s.takeWhile cls).length

/-- The class `.`: any character but a line feed. -/
def anyChar (c : Char) : Bool := c != Char.ofNat 10

/-- The class `[0-9]`. -/
def digit (c : Char) : Bool := decide (48 ≤ c.toNat) && decide (c.toNat ≤ 57)

/-- The text `arn:aws:kms:`. -/
def arnHead : GoString := "arn:aws:kms:".toList

/-- The text `:key/`. -/
def keyTag : GoString := ":key/".toList

/-- The pattern `^arn:aws:kms:(.+):([0-9]+):key/(.+)$` compiled in
`createSession`. -/
def arnRe : List Item :=
  [Item.lit arnHead, Item.group anyChar, Item.lit [':'], Item.group digit,
   Item.lit keyTag, Item.group anyChar]

/-- `re.FindStringSubmatch(s)` for a pattern anchored at both ends: `none` is
the nil result, otherwise the whole match followed by the groups. -/
def FindStringSubmatch (re : List Item) (s : GoString) : Option (List GoString) :=
  (matchItems re s).map (fun caps => s :: caps)

/-! ## `keysources.go` -/

/-- The three parts of the temporary credentials returned by `AssumeRole`. -/
structure Credentials where
  AccessKeyId : GoString
  SecretAccessKey : GoString
  SessionToken : GoString

/-- The fields of `aws.Config` that this code sets; `Credentials = none` is the
ambient credential chain. -/
structure Config where
  Region : GoString
  Credentials : Option Credentials

/-- Go `error` values met in `keysources.go`. -/
inductive GoError where
  /-- an error produced outside the package (os, aws-sdk, base64) -/
  | foreign (msg : GoString)
  /-- `fmt.Errorf("No valid ARN found in %s", k.Arn)` -/
  | noValidArn (arn : GoString)
  /-- `fmt.Errorf("Error creating AWS session: %v", err)` -/
  | creatingSession (cause : GoError)
  /-- `fmt.Errorf("Error decrypting key: %v", err)` -/
  | decryptingKey (cause : GoError)
  /-- `fmt.Errorf("The key could not be decrypted with any KMS entries", errors)` -/
  | noEntryDecrypted (errors : List (Option GoError))

/-- The struct `KMS`. -/
structure KMS where
  Arn : GoString
  Role : GoString
  EncryptedKey : GoString

/-- The struct `KMSKeySource`; its slice is only read and written element-wise. -/
structure KMSKeySource where
  KMS : List KMS

/-- The collaborators outside the repository, for a type `Sess` of session
handles. -/
structure Env (Sess : Type) where
  /-- `session.NewSession(&config)` -/
  NewSession : Config → Except GoError Sess
  /-- `os.Hostname()` -/
  Hostname : Except GoError GoString
  /-- `sts.New(sess).AssumeRole` with `RoleArn` and `RoleSessionName` -/
  AssumeRole : Sess → GoString → GoString → Except GoError Credentials
  /-- `kms.New(sess).Decrypt` with `CiphertextBlob`, giving `Plaintext` -/
  Decrypt : Sess → GoString → Except GoError GoString
  /-- `kms.New(sess).Encrypt` with `Plaintext` and `KeyId`, giving `CiphertextBlob` -/
  Encrypt : Sess → GoString → GoString → Except GoError GoString
  /-- `base64.StdEncoding.DecodeString` -/
  DecodeString : GoString → Except GoError GoString
  /-- `base64.StdEncoding.EncodeToString` -/
  EncodeToString : GoString → GoString

/-- A call that leaves the process, as recorded in the call log. -/
inductive Call (Sess : Type) where
  | NewSession (config : Config)
  | Hostname
  | AssumeRole (sess : Sess) (roleArn sessionName : GoString)
  | Decrypt (sess : Sess) (blob : GoString)
  | Encrypt (sess : Sess) (plaintext keyId : GoString)

variable {Sess : Type}

/-- `KMS.createStsSession`: the result and the calls made. -/
def createStsSession (env : Env Sess) (k : KMS) (config : Config) (sess : Sess) :
    Except GoError Sess × List (Call Sess) :=
  match env.Hostname with
  | Except.error err => (Except.error err, [Call.Hostname])
  | Except.ok hostname =>
    let name := "sops@".toList ++ hostname
    match env.AssumeRole sess k.Role name with
    | Except.error err => (Except.error err, [Call.Hostname, Call.AssumeRole sess k.Role name])
    | Except.ok out =>
      let config2 : Config := { config with Credentials := some out }
      match env.NewSession config2 with
      | Except.error err =>
        (Except.error err,
          [Call.Hostname, Call.AssumeRole sess k.Role name, Call.NewSession config2])
      | Except.ok sess2 =>
        (Except.ok sess2,
          [Call.Hostname, Call.AssumeRole sess k.Role name, Call.NewSession config2])

/-- `KMS.createSession`: the result and the calls made. -/
def createSession (env : Env Sess) (k : KMS) : Except GoError Sess × List (Call Sess) :=
  match FindStringSubmatch arnRe k.Arn with
  | none => (Except.error (GoError.noValidArn k.Arn), [])
  | some caps =>
    let config : Config := { Region := caps.getD 1 [], Credentials := none }
    match env.NewSession config with
    | Except.error err => (Except.error err, [Call.NewSession config])
    | Except.ok sess =>
      if k.Role ≠ [] then
        let r := createStsSession env k config sess
        (r.1, Call.NewSession config :: r.2)
      else (Except.ok sess, [Call.NewSession config])

/-- `KMS.DecryptKey`: the returned pair and the calls made. -/
def DecryptKey (env : Env Sess) (k : KMS) (encryptedKey : GoString) :
    (GoString × Option GoError) × List (Call Sess) :=
  match createSession env k with
  | (Except.error err, log) => (([], some (GoError.creatingSession err)), log)
  | (Except.ok sess, log) =>
    match env.Decrypt sess encryptedKey with
    | Except.error err =>
      (([], some (GoError.decryptingKey err)), log ++ [Call.Decrypt sess encryptedKey])
    | Except.ok plaintext => ((plaintext, none), log ++ [Call.Decrypt sess encryptedKey])

/-- The loop of `KMSKeySource.DecryptKeys` over the entries still to visit,
with the `errors` slice and the call log accumulated so far. -/
def decryptLoop (env : Env Sess) :
    List KMS → List (Option GoError) → List (Call Sess) →
      (GoString × Option GoError) × List (Call Sess)
  | [], errors, log => (([], some (GoError.noEntryDecrypted errors)), log)
  | kms :: rest, errors, log =>
    match env.DecodeString kms.EncryptedKey with
    | Except.error _ => decryptLoop env rest errors log
    | Except.ok encKey =>
      match DecryptKey env kms encKey with
      | ((key, none), calls) => ((key, none), log ++ calls)
      | ((_, some err), calls) => decryptLoop env rest (errors ++ [some err]) (log ++ calls)

/-- `KMSKeySource.DecryptKeys`; `errors := make([]error, 1)` starts as one nil. -/
def DecryptKeys (env : Env Sess) (ks : KMSKeySource) :
    (GoString × Option GoError) × List (Call Sess) :=
  decryptLoop env ks.KMS [none] []

/-- The loop of `KMSKeySource.EncryptKeys`: `todo` iterations remain, `i` is the
current index, `arr` the entries (shared with the caller), `log` the calls so
far. The result is the returned error, the entries and the call log. From
`EncryptKeys` the loop runs with `i + todo = len(arr)`, so `arr[i]` exists. -/
def encryptLoop (env : Env Sess) (plaintext : GoString) :
    Nat → Nat → List KMS → List (Call Sess) → Option GoError × List KMS × List (Call Sess)
  | 0, _, arr, log => (none, arr, log)
  | todo + 1, i, arr, log =>
    match arr[i]? with
    | none => (none, arr, log)
    | some entry =>
      match createSession env entry with
      | (Except.error err, calls) => (some err, arr, log ++ calls)
      | (Except.ok sess, calls) =>
        match env.Encrypt sess plaintext entry.Arn with
        | Except.error err =>
          (some err, arr, log ++ calls ++ [Call.Encrypt sess plaintext entry.Arn])
        | Except.ok out =>
          encryptLoop env plaintext todo (i + 1)
            (arr.set i { entry with EncryptedKey := env.EncodeToString out })
            (log ++ calls ++ [Call.Encrypt sess plaintext entry.Arn])

/-- `KMSKeySource.EncryptKeys`: the returned error, the entries as the caller
sees them afterwards, and the calls made. -/
def EncryptKeys (env : Env Sess) (ks : KMSKeySource) (plaintext : GoString) :
    Option GoError × KMSKeySource × List (Call Sess) :=
  let r := encryptLoop env plaintext ks.KMS.length 0 ks.KMS []
  (r.1, { KMS := r.2.1 }, r.2.2)

/-! ## `sops.go` -/

/-- A Go slice: its `len` visible cells, then the cells of the backing array
between `len` and `cap`. -/
structure Slice (α : Type) where
  elems : List α
  spare : List α

/-- The struct `KeySource`; `K` is the type of the `*MasterKey` values. -/
structure KeySource (K : Type) where
  Name : GoString
  Keys : Slice K

/-- The struct `Metadata`. -/
structure Metadata (K : Type) where
  LastModified : Int
  UnencryptedSuffix : GoString
  MessageAuthenticationCode : GoString
  Version : GoString
  KeySources : List (KeySource K)

/-- The interface `MasterKey`, over a store `σ` that holds whatever the keys and
their backends keep. -/
structure MasterKey (K σ : Type) where
  Encrypt : K → GoString → σ → Option GoError × σ
  EncryptIfNeeded : K → GoString → σ → Option GoError × σ
  Decrypt : K → σ → (GoString × Option GoError) × σ
  NeedsRotation : K → σ → Bool × σ
  ToString : K → σ → GoString

/-- Run-time panics of slice operations. -/
inductive Panic where
  /-- `slice bounds out of range [:hi] with capacity cap` -/
  | sliceCap (hi cap : Nat)
  /-- `slice bounds out of range [lo:hi]` -/
  | sliceRange (lo hi : Nat)
  /-- `index out of range [i] with length len` -/
  | index (i len : Nat)
  deriving DecidableEq, Repr

variable {K σ : Type}

/-- `Metadata.MasterKeyCount`: the returned count, and the receiver afterwards. -/
def MasterKeyCount (m : Metadata K) : Nat × Metadata K :=
  (m.KeySources.foldl (fun count ks => count + ks.Keys.elems.length) 0, m)

/-- The statement `ks.Keys = append(ks.Keys[:i], ks.Keys[i+1:]...)`, where `arr`
is the backing array of `ks.Keys` and `len` its length. `ks.Keys[:i]` needs
`i ≤ cap` and `ks.Keys[i+1:]` needs `i+1 ≤ len`. The destination `ks.Keys[:i]`
keeps the capacity of the array and the result has `len - 1` elements, so
`append` writes into the same array. -/
def deleteAt (arr : List K) (len i : Nat) : Except Panic (List K × Nat) :=
  if arr.length < i then Except.error (Panic.sliceCap i arr.length)
  else if len < i + 1 then Except.error (Panic.sliceRange (i + 1) len)
  else
    let tail := (arr.take len).drop (i + 1)
    Except.ok (arr.take i ++ tail ++ arr.drop (i + tail.length), i + tail.length)

/-- The loop `for _, k2 := range keys` of `RemoveMasterKeys` at index `i` with
element `k`; `cur` is the backing array and the length of the local `ks.Keys`. -/
def removeTargets (mk : MasterKey K σ) (st : σ) (i : Nat) (k : K) :
    List K → List K × Nat → Except Panic (List K × Nat)
  | [], cur => Except.ok cur
  | k2 :: rest, cur =>
    if mk.ToString k st = mk.ToString k2 st then
      match deleteAt cur.1 cur.2 i with
      | Except.error p => Except.error p
      | Except.ok cur2 => removeTargets mk st i k rest cur2
    else removeTargets mk st i k rest cur

/-- The loop `for i, k := range ks.Keys` of `RemoveMasterKeys`: the range
expression is evaluated once, so the number of iterations is fixed (`todo`
remain) while each element is read from the shared array when its turn comes.
The array keeps its cells, so the read at `i` is always in range. -/
def removeScan (mk : MasterKey K σ) (st : σ) (keys : List K) :
    Nat → Nat → List K × Nat → Except Panic (List K × Nat)
  | 0, _, cur => Except.ok cur
  | todo + 1, i, cur =>
    match cur.1[i]? with
    | none => Except.error (Panic.index i cur.1.length)
    | some k =>
      match removeTargets mk st i k keys cur with
      | Except.error p => Except.error p
      | Except.ok cur2 => removeScan mk st keys todo (i + 1) cur2

/-- One iteration of `for _, ks := range m.KeySources` in `RemoveMasterKeys`.
`ks` is a copy of the element: the assignments to `ks.Keys` change the copy,
while the element of `m.KeySources` keeps its length and capacity and shares
the backing array that `append` wrote to. The result is that element. -/
def removeFromSource (mk : MasterKey K σ) (st : σ) (keys : List K) (ks : KeySource K) :
    Except Panic (KeySource K) :=
  let n := ks.Keys.elems.length
  match removeScan mk st keys n 0 (ks.Keys.elems ++ ks.Keys.spare, n) with
  | Except.error p => Except.error p
  | Except.ok cur => Except.ok { ks with Keys := { elems := cur.1.take n, spare := cur.1.drop n } }

/-- The loop over `m.KeySources` of `RemoveMasterKeys`. -/
def removeSources (mk : MasterKey K σ) (st : σ) (keys : List K) :
    List (KeySource K) → Except Panic (List (KeySource K))
  | [] => Except.ok []
  | ks :: rest =>
    match removeFromSource mk st keys ks with
    | Except.error p => Except.error p
    | Except.ok ks2 =>
      match removeSources mk st keys rest with
      | Except.error p => Except.error p
      | Except.ok rest2 => Except.ok (ks2 :: rest2)

/-- `Metadata.RemoveMasterKeys`: the receiver afterwards, or the panic. -/
def RemoveMasterKeys (mk : MasterKey K σ) (st : σ) (m : Metadata K) (keys : List K) :
    Except Panic (Metadata K) :=
  match removeSources mk st keys m.KeySources with
  | Except.error p => Except.error p
  | Except.ok sources => Except.ok { m with KeySources := sources }

/-- What `UpdateMasterKeys` can change: the store of the keys, the sequence of
`EncryptIfNeeded` invocations (receiver and argument), and standard output. -/
structure World (K σ : Type) where
  store : σ
  invoked : List (K × GoString)
  stdout : GoString

/-- The text written by `fmt.Println(a, b)` for two string operands. -/
def Println (a b : GoString) : GoString := a ++ [' '] ++ b ++ [Char.ofNat 10]

/-- The first operand of the warning printed by `UpdateMasterKeys`. -/
def warning : GoString := "[WARNING]: could not encrypt data key with master key ".toList

/-- The body of the inner loop of `UpdateMasterKeys` for the key `k`. -/
def updateKey (mk : MasterKey K σ) (dataKey : GoString) (w : World K σ) (k : K) : World K σ :=
  let r := mk.EncryptIfNeeded k dataKey w.store
  let invoked := w.invoked ++ [(k, dataKey)]
  match r.1 with
  | some _ =>
    { store := r.2, invoked := invoked, stdout := w.stdout ++ Println warning (mk.ToString k r.2) }
  | none => { store := r.2, invoked := invoked, stdout := w.stdout }

/-- `Metadata.UpdateMasterKeys`; the Go function has no result. -/
def UpdateMasterKeys (mk : MasterKey K σ) (m : Metadata K) (dataKey : GoString)
    (w : World K σ) : World K σ :=
  m.KeySources.foldl (fun w1 ks => ks.Keys.elems.foldl (updateKey mk dataKey) w1) w

/-! ## Specification-side vocabulary -/

/-- The items of `arnRe` after the region group. -/
def arnTail : List Item :=
  [Item.lit [':'], Item.group digit, Item.lit keyTag, Item.group anyChar]

/-- The strings described by the pattern of `createSession`:
`arn:aws:kms:<region>:<account>:key/<key-id>` with a non-empty region and key id
free of line feeds and a non-empty account of decimal digits. -/
def ArnShape (s : GoString) : Prop :=
  ∃ region account keyId, s = arnHead ++ region ++ [':'] ++ account ++ keyTag ++ keyId ∧
    region ≠ [] ∧ (∀ c ∈ region, anyChar c = true) ∧
    account ≠ [] ∧ (∀ c ∈ account, digit c = true) ∧
    keyId ≠ [] ∧ (∀ c ∈ keyId, anyChar c = true)

/-- The segments of a string between its colons. -/
def colonSegments : GoString → List GoString
  | [] => [[]]
  | c :: s =>
    if c = ':' then [] :: colonSegments s
    else
      match colonSegments s with
      | [] => [[c]]
      | seg :: segs => (c :: seg) :: segs

/-- The ARN form as the specification words it: exactly the six colon-separated
segments `arn`, `aws`, `kms`, a region, an account id of twelve decimal digits,
and `key/` followed by a key id. -/
def documentedArn (s : GoString) : Bool :=
  match colonSegments s with
  | [p1, p2, p3, region, account, key] =>
    p1 == "arn".toList && p2 == "aws".toList && p3 == "kms".toList &&
    !region.isEmpty && account.length == 12 && account.all digit &&
    "key/".toList.isPrefixOf key && decide (4 < key.length)
  | _ => false

/-- An entry that `DecryptKeys` cannot use: its `EncryptedKey` does not decode, or
its session cannot be created, or the backend refuses to decrypt. -/
def Invalid (env : Env Sess) (e : KMS) : Prop :=
  (∃ err, env.DecodeString e.EncryptedKey = Except.error err) ∨
  (∃ err, (createSession env e).1 = Except.error err) ∨
  (∃ blob sess err, env.DecodeString e.EncryptedKey = Except.ok blob ∧
    (createSession env e).1 = Except.ok sess ∧ env.Decrypt sess blob = Except.error err)

/-- An entry whose `EncryptedKey` decodes and whose decoded bytes the backend
decrypts to `p`. -/
def DecryptsTo (env : Env Sess) (e : KMS) (p : GoString) : Prop :=
  ∃ blob sess, env.DecodeString e.EncryptedKey = Except.ok blob ∧
    (createSession env e).1 = Except.ok sess ∧ env.Decrypt sess blob = Except.ok p

/-- Session creation succeeds for `e` and the backend encrypts `plaintext` under
its ARN to `out`. -/
def EncryptsTo (env : Env Sess) (plaintext : GoString) (e : KMS) (out : GoString) : Prop :=
  ∃ sess, (createSession env e).1 = Except.ok sess ∧
    env.Encrypt sess plaintext e.Arn = Except.ok out

/-- Session creation for `e`, or else the backend encrypt call, fails with `err`. -/
def EncryptFails (env : Env Sess) (plaintext : GoString) (e : KMS) (err : GoError) : Prop :=
  (createSession env e).1 = Except.error err ∨
  ∃ sess, (createSession env e).1 = Except.ok sess ∧
    env.Encrypt sess plaintext e.Arn = Except.error err

/-- The entry `e` once `EncryptKeys` has stored the ciphertext `out` in it. -/
def stored (env : Env Sess) (e : KMS) (out : GoString) : KMS :=
  { e with EncryptedKey := env.EncodeToString out }

/-- The effect of the iterations of `EncryptKeys` on the entries not yet
visited, by recursion on them: the error, these entries afterwards, the calls. -/
def sealFrom (env : Env Sess) (plaintext : GoString) :
    List KMS → Option GoError × List KMS × List (Call Sess)
  | [] => (none, [], [])
  | e :: rest =>
    match createSession env e with
    | (Except.error err, calls) => (some err, e :: rest, calls)
    | (Except.ok sess, calls) =>
      match env.Encrypt sess plaintext e.Arn with
      | Except.error err => (some err, e :: rest, calls ++ [Call.Encrypt sess plaintext e.Arn])
      | Except.ok out =>
        let r := sealFrom env plaintext rest
        (r.1, stored env e out :: r.2.1,
          calls ++ [Call.Encrypt sess plaintext e.Arn] ++ r.2.2)

/-- The keys of a `Metadata`, in KeySource order and then key order. -/
def allKeys (m : Metadata K) : List K :=
  (m.KeySources.map (fun ks => ks.Keys.elems)).flatten

/-- The keys of `l` whose identity equals no target identity, in their order. -/
def survivors (mk : MasterKey K σ) (st : σ) (keys : List K) (l : List K) : List K :=
  l.filter (fun k => !(keys.any (fun k2 => mk.ToString k st == mk.ToString k2 st)))

/-! ## Concrete instances -/

/-- An environment in which every collaborator answers: a session handle is the
configuration it was built from, the backend encrypts by reversing, and the
decoder accepts letters, digits, `+`, `/` and `=`. -/
def demoEnv : Env Config where
  NewSession := fun config => Except.ok config
  Hostname := Except.ok "host".toList
  AssumeRole := fun _ role name => Except.ok ⟨role, name, []⟩
  Decrypt := fun _ blob =>
    if blob.isEmpty then Except.error (GoError.foreign "empty blob".toList)
    else Except.ok blob.reverse
  Encrypt := fun _ plaintext _ => Except.ok plaintext.reverse
  DecodeString := fun s =>
    if s.all (fun c => c.isAlphanum || c == '+' || c == '/' || c == '=') then Except.ok s
    else Except.error (GoError.foreign "illegal base64 data".toList)
  EncodeToString := fun b => b

/-- As `demoEnv`, with a backend that refuses every encrypt call for the key
`arn:aws:kms:eu-west-1:222222222222:key/down`. -/
def flakyEnv : Env Config :=
  { demoEnv with
    Encrypt := fun _ plaintext keyId =>
      if keyId = "arn:aws:kms:eu-west-1:222222222222:key/down".toList then
        Except.error (GoError.foreign "unavailable".toList)
      else Except.ok plaintext.reverse }

/-- Master keys named by a number; `EncryptIfNeeded` fails on odd keys and the
store counts the invocations. -/
def demoKeys : MasterKey Nat Nat where
  Encrypt := fun _ _ s => (none, s)
  EncryptIfNeeded := fun k _ s =>
    (if k % 2 = 1 then some (GoError.foreign "refused".toList) else none, s + 1)
  Decrypt := fun _ s => (([], none), s)
  NeedsRotation := fun _ s => (false, s)
  ToString := fun k _ => List.replicate k 'k'

/-- A `Metadata` with one KeySource per list of keys, each slice full. -/
def demoMetadata (sources : List (List Nat)) : Metadata Nat :=
  { LastModified := 0, UnencryptedSuffix := [], MessageAuthenticationCode := [],
    Version := [], KeySources := sources.map (fun l => ⟨[], ⟨l, []⟩⟩) }

/-- An entry whose stored key is not base64. -/
def badBase64 : KMS :=
  { Arn := "arn:aws:kms:us-east-1:123456789012:key/abc-def".toList, Role := [],
    EncryptedKey := "!!!".toList }

/-- An entry whose ARN names another service. -/
def badArn : KMS :=
  { Arn := "arn:aws:s3:us-east-1:123456789012:key/abc-def".toList, Role := [],
    EncryptedKey := "c2VjcmV0".toList }

/-- An entry whose stored key decodes to the empty blob, which the backend of
`demoEnv` refuses to decrypt. -/
def emptyBlob : KMS :=
  { Arn := "arn:aws:kms:us-east-1:123456789012:key/abc-def".toList, Role := [],
    EncryptedKey := [] }

/-- An entry that `demoEnv` decrypts to `secret`. -/
def goodEntry : KMS :=
  { Arn := "arn:aws:kms:us-east-1:123456789012:key/abc-def".toList, Role := [],
    EncryptedKey := "terces".toList }

/-- An entry with a role, under the key that the backend of `flakyEnv` refuses. -/
def downEntry : KMS :=
  { Arn := "arn:aws:kms:eu-west-1:222222222222:key/down".toList,
    Role := "arn:aws:iam::222222222222:role/ops".toList, EncryptedKey := "old".toList }

/-! ## The pattern of `createSession` -/

theorem tryLens_some {β : Type} (f : Nat → Option β) (m : Nat) (r : β)
    (h : tryLens f m = some r) : ∃ n, 1 ≤ n ∧ n ≤ m ∧ f n = some r := by
  induction m with
  | zero => simp [tryLens] at h
  | succ m ih =>
    unfold tryLens at h
    cases hf : f (m + 1) with
    | some v =>
      rw [hf] at h
      simp only [Option.some.injEq] at h
      exact ⟨m + 1, by omega, le_refl _, by rw [hf, h]⟩
    | none =>
      rw [hf] at h
      obtain ⟨n, h1, h2, h3⟩ := ih h
      exact ⟨n, h1, by omega, h3⟩

theorem tryLens_first {β : Type} (f : Nat → Option β) (m n : Nat) (r : β)
    (h1 : 1 ≤ n) (h2 : n ≤ m) (hn : f n = some r)
    (hlater : ∀ j, n < j → j ≤ m → f j = none) : tryLens f m = some r := by
  induction m with
  | zero => omega
  | succ m ih =>
    unfold tryLens
    by_cases hm : n = m + 1
    · subst hm
      rw [hn]
    · rw [hlater (m + 1) (by omega) (le_refl _)]
      exact ih (by omega) (fun j hj1 hj2 => hlater j hj1 (by omega))

theorem tryLens_none {β : Type} (f : Nat → Option β) (m : Nat)
    (h : ∀ j, 1 ≤ j → j ≤ m → f j = none) : tryLens f m = none := by
  induction m with
  | zero => rfl
  | succ m ih =>
    unfold tryLens
    rw [h (m + 1) (by omega) (le_refl _)]
    exact ih (fun j hj1 hj2 => h j hj1 (by omega))

theorem matchItems_group_eq (cls : Char → Bool) (rest : List Item) (s : GoString) :
    matchItems (Item.group cls :: rest) s =
      tryLens (fun n => (matchItems rest (s.drop n)).map (fun caps => s.take n :: caps))
        (s.takeWhile cls).length := by
  simp only [matchItems]

theorem matchItems_lit_append (x : GoString) (rest : List Item) (s : GoString) :
    matchItems (Item.lit x :: rest) (x ++ s) = matchItems rest s := by
  simp [matchItems]

theorem matchItems_lit_some (x : GoString) (rest : List Item) (s : GoString)
    (caps : List GoString) (h : matchItems (Item.lit x :: rest) s = some caps) :
    ∃ t, s = x ++ t ∧ matchItems rest t = some caps := by
  simp only [matchItems] at h
  split at h
  · rename_i hp
    rw [List.isPrefixOf_iff_prefix] at hp
    obtain ⟨t, ht⟩ := hp
    refine ⟨t, ht.symm, ?_⟩
    rw [← ht] at h
    simpa using h
  · simp at h

theorem matchItems_group_some (cls : Char → Bool) (rest : List Item) (s : GoString)
    (caps : List GoString) (h : matchItems (Item.group cls :: rest) s = some caps) :
    ∃ r t caps2, s = r ++ t ∧ r ≠ [] ∧ (∀ c ∈ r, cls c = true) ∧
      matchItems rest t = some caps2 ∧ caps = r :: caps2 := by
  simp only [matchItems] at h
  obtain ⟨n, h1, h2, h3⟩ := tryLens_some _ _ _ h
  cases hm : matchItems rest (s.drop n) with
  | none => simp [hm] at h3
  | some caps2 =>
    rw [hm] at h3
    simp only [Option.map_some', Option.some.injEq] at h3
    have hlen : (s.takeWhile cls).length ≤ s.length := (List.takeWhile_sublist cls).length_le
    refine ⟨s.take n, s.drop n, caps2, (List.take_append_drop n s).symm, ?_, ?_, hm, h3.symm⟩
    · intro h0
      have hl := congrArg List.length h0
      rw [List.length_take, List.length_nil] at hl
      omega
    · intro c hc
      have hpre : s.take n = (s.takeWhile cls).take n := by
        have hp : (s.takeWhile cls) <+: s := List.takeWhile_prefix cls
        obtain ⟨t, ht⟩ := hp
        conv_lhs => rw [← ht]
        rw [List.take_append_of_le_length h2]
      rw [hpre] at hc
      exact List.mem_takeWhile_imp (List.mem_of_mem_take hc)



theorem colon_not_digit : digit ':' = false := by decide

theorem keyTag_eq : keyTag = [':', 'k', 'e', 'y', '/'] := by decide

theorem matchItems_group_all (cls : Char → Bool) (s : GoString) (hs : s ≠ [])
    (hall : ∀ c ∈ s, cls c = true) : matchItems [Item.group cls] s = some [s] := by
  simp only [matchItems]
  have htw : s.takeWhile cls = s := List.takeWhile_eq_self_iff.mpr hall
  rw [htw]
  apply tryLens_first _ _ s.length
  · cases s with
    | nil => exact absurd rfl hs
    | cons a t => simp
  · exact le_refl _
  · simp [matchItems]
  · intro j hj1 hj2
    omega

theorem arnTail_none_of_head (t : GoString) (h : t.head? ≠ some ':') :
    matchItems arnTail t = none := by
  cases t with
  | nil => simp [arnTail, matchItems]
  | cons c t =>
    have hc : c ≠ ':' := by simpa using h
    have hc2 : ¬ (':' = c) := fun e => hc e.symm
    simp [arnTail, matchItems, hc2]

theorem arnTail_none_of_second (c : Char) (t : GoString) (h : digit c = false) :
    matchItems arnTail (':' :: c :: t) = none := by
  simp [arnTail, matchItems, List.takeWhile, h, tryLens]

theorem arnTail_none_drop_key (k : GoString) (hk : ':' ∉ k) (j : Nat) :
    matchItems arnTail (k.drop j) = none := by
  apply arnTail_none_of_head
  intro h
  have hm : ':' ∈ k.drop j := by
    cases hd : k.drop j with
    | nil => rw [hd] at h; simp at h
    | cons c t =>
      rw [hd] at h
      simp only [List.head?_cons, Option.some.injEq] at h
      simp [h]
  exact hk (List.mem_of_mem_drop hm)

theorem arnTail_none_drop_tag (k : GoString) (hk : ':' ∉ k) (j : Nat) :
    matchItems arnTail ((keyTag ++ k).drop j) = none := by
  rw [keyTag_eq]
  match j with
  | 0 => exact arnTail_none_of_second _ _ (by decide)
  | 1 => exact arnTail_none_of_head _ (by simp)
  | 2 => exact arnTail_none_of_head _ (by simp)
  | 3 => exact arnTail_none_of_head _ (by simp)
  | 4 => exact arnTail_none_of_head _ (by simp)
  | j + 5 => simpa using arnTail_none_drop_key k hk j

theorem arnTail_none_drop (a k : GoString) (ha : ∀ c ∈ a, digit c = true) (hk : ':' ∉ k)
    (j : Nat) : matchItems arnTail ((a ++ keyTag ++ k).drop j) = none := by
  induction a generalizing j with
  | nil => simpa using arnTail_none_drop_tag k hk j
  | cons c a ih =>
    cases j with
    | zero =>
      apply arnTail_none_of_head
      have hc : digit c = true := ha c (List.mem_cons_self _ _)
      intro h
      simp only [List.drop_zero, List.cons_append, List.head?_cons, Option.some.injEq] at h
      rw [h, colon_not_digit] at hc
      exact Bool.false_ne_true hc
    | succ j =>
      simpa using ih (fun d hd => ha d (List.mem_cons_of_mem _ hd)) j

theorem takeWhile_digit_account (a t : GoString) (ha : ∀ c ∈ a, digit c = true) :
    (a ++ keyTag ++ t).takeWhile digit = a := by
  induction a with
  | nil => simp [keyTag_eq, List.takeWhile, colon_not_digit]
  | cons c a ih =>
    have hc : digit c = true := ha c (List.mem_cons_self _ _)
    simp only [List.cons_append, List.takeWhile_cons, hc, if_true]
    rw [ih (fun d hd => ha d (List.mem_cons_of_mem _ hd))]

theorem matchItems_arnTail (a k : GoString) (ha0 : a ≠ []) (ha : ∀ c ∈ a, digit c = true)
    (hk0 : k ≠ []) (hk : ∀ c ∈ k, anyChar c = true) :
    matchItems arnTail (':' :: (a ++ keyTag ++ k)) = some [a, k] := by
  have h1 : matchItems arnTail (':' :: (a ++ keyTag ++ k)) =
      matchItems [Item.group digit, Item.lit keyTag, Item.group anyChar] (a ++ keyTag ++ k) := by
    simp [arnTail, matchItems]
  rw [h1, matchItems_group_eq, takeWhile_digit_account a k ha]
  apply tryLens_first _ _ a.length
  · cases a with
    | nil => exact absurd rfl ha0
    | cons c t => simp
  · exact le_refl _
  · have h2 : (a ++ keyTag ++ k).drop a.length = keyTag ++ k := by
      rw [List.append_assoc, List.drop_left]
    have h3 : (a ++ keyTag ++ k).take a.length = a := by
      rw [List.append_assoc, List.take_left]
    rw [h2, h3, matchItems_lit_append, matchItems_group_all anyChar k hk0 hk]
    rfl
  · intro j hj1 hj2
    omega


theorem tryLens_eq_none {β : Type} (f : Nat → Option β) (m : Nat) (h : tryLens f m = none) :
    ∀ j, 1 ≤ j → j ≤ m → f j = none := by
  induction m with
  | zero => intro j h1 h2; omega
  | succ m ih =>
    unfold tryLens at h
    cases hf : f (m + 1) with
    | some v => rw [hf] at h; simp at h
    | none =>
      rw [hf] at h
      intro j h1 h2
      by_cases hj : j = m + 1
      · rw [hj, hf]
      · exact ih h j h1 (by omega)

theorem takeWhile_length_ge (cls : Char → Bool) (r t : GoString) (hr : ∀ c ∈ r, cls c = true) :
    r.length ≤ ((r ++ t).takeWhile cls).length := by
  rw [List.takeWhile_append_of_pos hr]
  simp

theorem arn_assoc (r a k : GoString) :
    arnHead ++ r ++ [':'] ++ a ++ keyTag ++ k = arnHead ++ r ++ ':' :: (a ++ keyTag ++ k) := by
  simp

theorem arnRe_eq : arnRe = Item.lit arnHead :: Item.group anyChar :: arnTail := rfl

theorem matchItems_arnRe_region (r a k : GoString) (hr0 : r ≠ [])
    (hr : ∀ c ∈ r, anyChar c = true) (ha0 : a ≠ []) (ha : ∀ c ∈ a, digit c = true)
    (hk0 : k ≠ []) (hk : ∀ c ∈ k, anyChar c = true) (hkc : ':' ∉ k) :
    matchItems arnRe (arnHead ++ r ++ ':' :: (a ++ keyTag ++ k)) = some [r, a, k] := by
  rw [arnRe_eq, List.append_assoc, matchItems_lit_append, matchItems_group_eq]
  apply tryLens_first _ _ r.length
  · cases r with
    | nil => exact absurd rfl hr0
    | cons c t => simp
  · exact takeWhile_length_ge anyChar r _ hr
  · rw [List.drop_left, List.take_left, matchItems_arnTail a k ha0 ha hk0 hk]
    rfl
  · intro j hj1 _
    obtain ⟨d, rfl⟩ : ∃ d, j = r.length + (d + 1) := ⟨j - r.length - 1, by omega⟩
    have hd : (r ++ ':' :: (a ++ keyTag ++ k)).drop (r.length + (d + 1)) =
        (a ++ keyTag ++ k).drop d := by
      rw [← List.drop_drop, List.drop_left, List.drop_succ_cons]
    rw [hd, arnTail_none_drop a k ha hkc]
    rfl

theorem matchItems_arnRe_shape (s : GoString) (h : ArnShape s) : matchItems arnRe s ≠ none := by
  obtain ⟨r, a, k, hs, hr0, hr, ha0, ha, hk0, hk⟩ := h
  rw [hs, arn_assoc, arnRe_eq, List.append_assoc, matchItems_lit_append, matchItems_group_eq]
  intro hnone
  have hlen : 1 ≤ r.length := by
    cases r with
    | nil => exact absurd rfl hr0
    | cons c t => simp
  have hf := tryLens_eq_none _ _ hnone r.length hlen (takeWhile_length_ge anyChar r _ hr)
  rw [List.drop_left, List.take_left, matchItems_arnTail a k ha0 ha hk0 hk] at hf
  simp at hf

theorem matchItems_arnRe_some (s : GoString) (caps : List GoString)
    (h : matchItems arnRe s = some caps) :
    ∃ r a k, caps = [r, a, k] ∧ s = arnHead ++ r ++ ':' :: (a ++ keyTag ++ k) ∧
      r ≠ [] ∧ (∀ c ∈ r, anyChar c = true) ∧ a ≠ [] ∧ (∀ c ∈ a, digit c = true) ∧
      k ≠ [] ∧ (∀ c ∈ k, anyChar c = true) := by
  rw [arnRe_eq] at h
  obtain ⟨t1, hs1, h1⟩ := matchItems_lit_some _ _ _ _ h
  obtain ⟨r, t2, c2, hs2, hr0, hr, h2, hc2⟩ := matchItems_group_some _ _ _ _ h1
  obtain ⟨t3, hs3, h3⟩ := matchItems_lit_some _ _ _ _ h2
  obtain ⟨a, t4, c4, hs4, ha0, ha, h4, hc4⟩ := matchItems_group_some _ _ _ _ h3
  obtain ⟨t5, hs5, h5⟩ := matchItems_lit_some _ _ _ _ h4
  obtain ⟨k, t6, c6, hs6, hk0, hk, h6, hc6⟩ := matchItems_group_some _ _ _ _ h5
  simp only [matchItems] at h6
  split at h6
  · rename_i hemp
    have ht6 : t6 = [] := by simpa using hemp
    simp only [Option.some.injEq] at h6
    refine ⟨r, a, k, ?_, ?_, hr0, hr, ha0, ha, hk0, hk⟩
    · rw [hc2, hc4, hc6, ← h6]
    · rw [hs1, hs2, hs3, hs4, hs5, hs6, ht6]
      simp
  · simp at h6


theorem FindStringSubmatch_none_iff (s : GoString) :
    FindStringSubmatch arnRe s = none ↔ ¬ ArnShape s := by
  constructor
  · intro h hs
    apply matchItems_arnRe_shape s hs
    simpa [FindStringSubmatch] using h
  · intro h
    cases hm : matchItems arnRe s with
    | none => simp [FindStringSubmatch, hm]
    | some caps =>
      exfalso
      apply h
      obtain ⟨r, a, k, _, hs, rest⟩ := matchItems_arnRe_some s caps hm
      exact ⟨r, a, k, by rw [arn_assoc]; exact hs, rest⟩

theorem createStsSession_regions {Sess : Type} (env : Env Sess) (k : KMS) (config : Config)
    (sess : Sess) (c : Config) (h : Call.NewSession c ∈ (createStsSession env k config sess).2) :
    c.Region = config.Region := by
  unfold createStsSession at h
  split at h
  · simp at h
  · dsimp only at h
    split at h
    · simp at h
    · split at h <;> (simp at h; rw [h])

/-- Claim C8: for every ARN `arn:aws:kms:<region>:<account>:key/<key-id>` whose
region and key id are non-empty and free of line feeds, whose account id is a
non-empty run of decimal digits and whose key id holds no colon (no extra
colon-separated segment), whatever the account id and key id are, the region
capture `matches[1]` of the pattern is exactly `<region>`, the first call of
`createSession` is `NewSession` with that region and ambient credentials, and
every session that `createSession` builds is configured with that region. -/
theorem createSession_region {Sess : Type} (env : Env Sess) (k : KMS)
    (region account keyId : GoString)
    (hArn : k.Arn = arnHead ++ region ++ [':'] ++ account ++ keyTag ++ keyId)
    (hr0 : region ≠ []) (hr : ∀ c ∈ region, anyChar c = true)
    (ha0 : account ≠ []) (ha : ∀ c ∈ account, digit c = true)
    (hk0 : keyId ≠ []) (hk : ∀ c ∈ keyId, anyChar c = true) (hkc : ':' ∉ keyId) :
    FindStringSubmatch arnRe k.Arn = some [k.Arn, region, account, keyId] ∧
    (∃ rest, (createSession env k).2 =
      Call.NewSession { Region := region, Credentials := none } :: rest) ∧
    ∀ config, Call.NewSession config ∈ (createSession env k).2 → config.Region = region := by
  have hm : FindStringSubmatch arnRe k.Arn = some [k.Arn, region, account, keyId] := by
    unfold FindStringSubmatch
    rw [hArn, arn_assoc, matchItems_arnRe_region region account keyId hr0 hr ha0 ha hk0 hk hkc]
    rfl
  refine ⟨hm, ?_, ?_⟩
  · unfold createSession
    rw [hm]
    simp only [List.getD_cons_succ, List.getD_cons_zero]
    cases env.NewSession { Region := region, Credentials := none } with
    | error e => exact ⟨_, rfl⟩
    | ok sess =>
      by_cases hrole : k.Role = []
      · simp [hrole]
      · simp [hrole]
  · intro config hc
    unfold createSession at hc
    rw [hm] at hc
    simp only [List.getD_cons_succ, List.getD_cons_zero] at hc
    cases h1 : env.NewSession { Region := region, Credentials := none } with
    | error e =>
      simp [h1] at hc
      rw [hc]
    | ok sess =>
      simp only [h1] at hc
      by_cases hrole : k.Role = []
      · simp [hrole] at hc
        rw [hc]
      · simp only [hrole, ne_eq, not_false_eq_true, if_true, List.mem_cons] at hc
        rcases hc with hc | hc
        · simp at hc
          rw [hc]
        · exact createStsSession_regions env k _ sess config hc

/-- Claim C7, amended: for every string outside the language of the pattern
compiled in `createSession`, that is every string not of the form
`arn:aws:kms:<region>:<account>:key/<key-id>` with a non-empty region and key id
free of line feeds and a non-empty account id of decimal digits, `createSession`
returns the `No valid ARN found` error and has made no call at all: no session
is built and nothing is sent to STS or KMS. -/
theorem createSession_rejects {Sess : Type} (env : Env Sess) (k : KMS) (h : ¬ ArnShape k.Arn) :
    createSession env k = (Except.error (GoError.noValidArn k.Arn), []) := by
  unfold createSession
  rw [(FindStringSubmatch_none_iff k.Arn).mpr h]

/-- Claim C7 fails as stated: `arn:aws:kms:us-east-1:123:key/abc`, whose account
id has three digits, and `arn:aws:kms:us:east:1:123456789012:key/abc`, which has
two extra colon-separated segments, both deviate from the documented form, yet
`createSession` returns no error for them and builds a session (for the regions
`us-east-1` and `us:east:1`). -/
theorem createSession_accepts_undocumented :
    documentedArn "arn:aws:kms:us-east-1:123:key/abc".toList = false ∧
    createSession demoEnv
        { Arn := "arn:aws:kms:us-east-1:123:key/abc".toList, Role := [], EncryptedKey := [] } =
      (Except.ok { Region := "us-east-1".toList, Credentials := none },
        [Call.NewSession { Region := "us-east-1".toList, Credentials := none }]) ∧
    documentedArn "arn:aws:kms:us:east:1:123456789012:key/abc".toList = false ∧
    createSession demoEnv
        { Arn := "arn:aws:kms:us:east:1:123456789012:key/abc".toList, Role := [],
          EncryptedKey := [] } =
      (Except.ok { Region := "us:east:1".toList, Credentials := none },
        [Call.NewSession { Region := "us:east:1".toList, Credentials := none }]) :=
  ⟨by decide, rfl, by decide, rfl⟩

/-- Instance of `createSession_rejects`: an ARN without the `key/` part. -/
theorem createSession_rejects_witness :
    ¬ ArnShape "arn:aws:kms:us-east-1:123456789012:abc".toList ∧
    createSession demoEnv
        { Arn := "arn:aws:kms:us-east-1:123456789012:abc".toList, Role := [], EncryptedKey := [] } =
      (Except.error (GoError.noValidArn "arn:aws:kms:us-east-1:123456789012:abc".toList), []) :=
  ⟨(FindStringSubmatch_none_iff _).mp (by decide),
   createSession_rejects demoEnv
     { Arn := "arn:aws:kms:us-east-1:123456789012:abc".toList, Role := [], EncryptedKey := [] }
     ((FindStringSubmatch_none_iff _).mp (by decide))⟩

/-- Instance of `createSession_region`: a key in `us-east-1` used through a role. -/
theorem createSession_region_witness :
    FindStringSubmatch arnRe "arn:aws:kms:us-east-1:123456789012:key/abc-def".toList =
      some ["arn:aws:kms:us-east-1:123456789012:key/abc-def".toList, "us-east-1".toList,
        "123456789012".toList, "abc-def".toList] ∧
    ∃ rest,
      (createSession demoEnv
        { Arn := "arn:aws:kms:us-east-1:123456789012:key/abc-def".toList,
          Role := "arn:aws:iam::123456789012:role/ops".toList, EncryptedKey := [] }).2 =
        Call.NewSession { Region := "us-east-1".toList, Credentials := none } :: rest := by
  have h := createSession_region demoEnv
    { Arn := "arn:aws:kms:us-east-1:123456789012:key/abc-def".toList,
      Role := "arn:aws:iam::123456789012:role/ops".toList, EncryptedKey := [] }
    "us-east-1".toList "123456789012".toList "abc-def".toList
    (by decide) (by decide) (by decide) (by decide) (by decide) (by decide) (by decide)
    (by decide)
  exact ⟨h.1, h.2.1⟩

/-! ## `DecryptKeys` -/


theorem DecryptKey_of_session_error (env : Env Sess) (e : KMS) (blob : GoString) (err : GoError)
    (h : (createSession env e).1 = Except.error err) :
    DecryptKey env e blob = (([], some (GoError.creatingSession err)), (createSession env e).2) := by
  unfold DecryptKey
  cases hc : createSession env e with
  | mk r l =>
    rw [hc] at h
    simp only at h
    subst h
    rfl

theorem DecryptKey_of_decrypt_error (env : Env Sess) (e : KMS) (blob : GoString) (sess : Sess)
    (err : GoError) (h : (createSession env e).1 = Except.ok sess)
    (hd : env.Decrypt sess blob = Except.error err) :
    DecryptKey env e blob = (([], some (GoError.decryptingKey err)),
      (createSession env e).2 ++ [Call.Decrypt sess blob]) := by
  unfold DecryptKey
  cases hc : createSession env e with
  | mk r l =>
    rw [hc] at h
    simp only at h
    subst h
    simp only [hd]

theorem DecryptKey_of_decrypt_ok (env : Env Sess) (e : KMS) (blob : GoString) (sess : Sess)
    (p : GoString) (h : (createSession env e).1 = Except.ok sess)
    (hd : env.Decrypt sess blob = Except.ok p) :
    DecryptKey env e blob = ((p, none), (createSession env e).2 ++ [Call.Decrypt sess blob]) := by
  unfold DecryptKey
  cases hc : createSession env e with
  | mk r l =>
    rw [hc] at h
    simp only at h
    subst h
    simp only [hd]

theorem decryptLoop_skip (env : Env Sess) (e : KMS) (h : Invalid env e) (rest : List KMS)
    (errors : List (Option GoError)) (log : List (Call Sess)) :
    ∃ errors2 log2, decryptLoop env (e :: rest) errors log = decryptLoop env rest errors2 log2 := by
  rcases h with ⟨err, h⟩ | ⟨err, h⟩ | ⟨blob, sess, err, h1, h2, h3⟩
  · exact ⟨errors, log, by simp only [decryptLoop, h]⟩
  · cases hd : env.DecodeString e.EncryptedKey with
    | error e2 => exact ⟨errors, log, by simp only [decryptLoop, hd]⟩
    | ok blob =>
      refine ⟨errors ++ [some (GoError.creatingSession err)], log ++ (createSession env e).2, ?_⟩
      simp only [decryptLoop, hd, DecryptKey_of_session_error env e blob err h]
  · refine ⟨errors ++ [some (GoError.decryptingKey err)],
      log ++ ((createSession env e).2 ++ [Call.Decrypt sess blob]), ?_⟩
    simp only [decryptLoop, h1, DecryptKey_of_decrypt_error env e blob sess err h2 h3]

theorem decryptLoop_hit (env : Env Sess) (e : KMS) (p : GoString) (h : DecryptsTo env e p)
    (rest : List KMS) (errors : List (Option GoError)) (log : List (Call Sess)) :
    (decryptLoop env (e :: rest) errors log).1 = (p, none) := by
  obtain ⟨blob, sess, h1, h2, h3⟩ := h
  simp only [decryptLoop, h1, DecryptKey_of_decrypt_ok env e blob sess p h2 h3]

theorem decryptLoop_first_valid (env : Env Sess) (pre : List KMS) (e : KMS) (post : List KMS)
    (p : GoString) (hpre : ∀ x ∈ pre, Invalid env x) (he : DecryptsTo env e p)
    (errors : List (Option GoError)) (log : List (Call Sess)) :
    (decryptLoop env (pre ++ e :: post) errors log).1 = (p, none) := by
  induction pre generalizing errors log with
  | nil => exact decryptLoop_hit env e p he post errors log
  | cons x pre ih =>
    obtain ⟨errors2, log2, h⟩ :=
      decryptLoop_skip env x (hpre x (List.mem_cons_self _ _)) (pre ++ e :: post) errors log
    rw [List.cons_append, h]
    exact ih (fun y hy => hpre y (List.mem_cons_of_mem _ hy)) errors2 log2

theorem decryptLoop_all_invalid (env : Env Sess) (l : List KMS) (h : ∀ x ∈ l, Invalid env x)
    (errors : List (Option GoError)) (log : List (Call Sess)) :
    ∃ errors2 log2,
      decryptLoop env l errors log = (([], some (GoError.noEntryDecrypted errors2)), log2) := by
  induction l generalizing errors log with
  | nil => exact ⟨errors, log, rfl⟩
  | cons x l ih =>
    obtain ⟨errors2, log2, hx⟩ := decryptLoop_skip env x (h x (List.mem_cons_self _ _)) l errors log
    rw [hx]
    exact ih (fun y hy => h y (List.mem_cons_of_mem _ hy)) errors2 log2

/-- Claim C2: in a `KMSKeySource` of `N ≥ 1` entries, if the entry at position
`j < N` has an `EncryptedKey` that decodes and the backend decrypts the decoded
bytes to `p`, while every other entry is invalid (its `EncryptedKey` does not
decode, or its session creation or its backend decrypt returns an error), then
`DecryptKeys` returns `(p, nil)`, whatever `j` is: the failing entries before
`j` do not stop the scan. -/
theorem DecryptKeys_fallback (env : Env Sess) (ks : KMSKeySource) (j : Nat) (p : GoString)
    (hj : j < ks.KMS.length)
    (hvalid : DecryptsTo env (ks.KMS.get ⟨j, hj⟩) p)
    (hothers : ∀ i (hi : i < ks.KMS.length), i ≠ j → Invalid env (ks.KMS.get ⟨i, hi⟩)) :
    (DecryptKeys env ks).1 = (p, none) := by
  unfold DecryptKeys
  have hsplit : ks.KMS = ks.KMS.take j ++ ks.KMS.get ⟨j, hj⟩ :: ks.KMS.drop (j + 1) := by
    rw [List.get_eq_getElem, List.getElem_cons_drop, List.take_append_drop]
  rw [hsplit]
  apply decryptLoop_first_valid env _ _ _ p _ hvalid
  intro x hx
  obtain ⟨i, hi, rfl⟩ := List.getElem_of_mem hx
  have hij : i < j := by
    rw [List.length_take] at hi
    omega
  rw [List.getElem_take]
  exact hothers i (by omega) (by omega)

/-- Claim C3: when every entry of a `KMSKeySource` is invalid, the empty source
included, `DecryptKeys` returns the empty string together with a non-nil error,
the aggregate one built from the collected `errors`. -/
theorem DecryptKeys_total_failure (env : Env Sess) (ks : KMSKeySource)
    (h : ∀ e ∈ ks.KMS, Invalid env e) :
    ∃ errors, (DecryptKeys env ks).1 = ([], some (GoError.noEntryDecrypted errors)) := by
  obtain ⟨errors2, log2, h2⟩ := decryptLoop_all_invalid env ks.KMS h [none] []
  exact ⟨errors2, by unfold DecryptKeys; rw [h2]⟩

theorem badBase64_invalid : Invalid demoEnv badBase64 := Or.inl ⟨_, rfl⟩
theorem badArn_invalid : Invalid demoEnv badArn := Or.inr (Or.inl ⟨_, rfl⟩)
theorem emptyBlob_invalid : Invalid demoEnv emptyBlob := Or.inr (Or.inr ⟨_, _, _, rfl, rfl, rfl⟩)
theorem goodEntry_decrypts : DecryptsTo demoEnv goodEntry "secret".toList := ⟨_, _, rfl, rfl, rfl⟩

/-- Instance of `DecryptKeys_fallback`: the valid entry is third of four. -/
theorem DecryptKeys_fallback_witness :
    (DecryptKeys demoEnv { KMS := [badBase64, badArn, goodEntry, emptyBlob] }).1 =
      ("secret".toList, none) :=
  DecryptKeys_fallback demoEnv { KMS := [badBase64, badArn, goodEntry, emptyBlob] } 2
    "secret".toList (by decide) goodEntry_decrypts
    (fun i hi hne =>
      match i, hi, hne with
      | 0, _, _ => badBase64_invalid
      | 1, _, _ => badArn_invalid
      | 2, _, h => absurd rfl h
      | 3, _, _ => emptyBlob_invalid
      | n + 4, h, _ => absurd h (by simp))

/-- Instance of `DecryptKeys_total_failure`: three entries, each invalid in its own way. -/
theorem DecryptKeys_total_failure_witness :
    ∃ errors, (DecryptKeys demoEnv { KMS := [badBase64, badArn, emptyBlob] }).1 =
      ([], some (GoError.noEntryDecrypted errors)) :=
  DecryptKeys_total_failure demoEnv { KMS := [badBase64, badArn, emptyBlob] }
    (fun e he => by
      simp only [List.mem_cons, List.mem_singleton, List.not_mem_nil, or_false] at he
      rcases he with rfl | rfl | rfl
      · exact badBase64_invalid
      · exact badArn_invalid
      · exact emptyBlob_invalid)

/-! ## `EncryptKeys` -/

theorem take_succ_set (arr : List KMS) (i : Nat) (a : KMS) (h : i < arr.length) :
    (arr.set i a).take (i + 1) = arr.take i ++ [a] := by
  induction arr generalizing i with
  | nil => simp at h
  | cons x arr ih =>
    cases i with
    | zero => simp
    | succ i =>
      simp only [List.length_cons, Nat.add_lt_add_iff_right] at h
      simp [ih i h]

theorem encryptLoop_eq_sealFrom (env : Env Sess) (plaintext : GoString) (todo i : Nat)
    (arr : List KMS) (log : List (Call Sess)) (h : i + todo = arr.length) :
    encryptLoop env plaintext todo i arr log =
      ((sealFrom env plaintext (arr.drop i)).1,
        arr.take i ++ (sealFrom env plaintext (arr.drop i)).2.1,
        log ++ (sealFrom env plaintext (arr.drop i)).2.2) := by
  induction todo generalizing i arr log with
  | zero =>
    have hi : i = arr.length := by omega
    subst hi
    simp [encryptLoop, sealFrom]
  | succ todo ih =>
    have hi : i < arr.length := by omega
    have hdrop : arr.drop i = arr[i] :: arr.drop (i + 1) := List.drop_eq_getElem_cons hi
    rw [hdrop]
    unfold encryptLoop sealFrom
    rw [List.getElem?_eq_getElem hi]
    simp only
    cases hc : createSession env arr[i] with
    | mk r calls =>
      cases r with
      | error err =>
        simp only
        rw [← hdrop, List.take_append_drop]
      | ok sess =>
        simp only
        cases he : env.Encrypt sess plaintext arr[i].Arn with
        | error err =>
          simp only
          rw [← hdrop, List.take_append_drop, List.append_assoc]
        | ok out =>
          simp only
          rw [ih (i + 1) _ _ (by rw [List.length_set]; omega)]
          rw [List.drop_set_of_lt _ _ (Nat.lt_succ_self i), take_succ_set arr i _ hi]
          simp [stored, List.append_assoc]

theorem EncryptKeys_eq_sealFrom (env : Env Sess) (ks : KMSKeySource) (plaintext : GoString) :
    EncryptKeys env ks plaintext =
      ((sealFrom env plaintext ks.KMS).1, { KMS := (sealFrom env plaintext ks.KMS).2.1 },
        (sealFrom env plaintext ks.KMS).2.2) := by
  unfold EncryptKeys
  rw [encryptLoop_eq_sealFrom env plaintext ks.KMS.length 0 ks.KMS [] (by omega)]
  simp

theorem sealFrom_fail (env : Env Sess) (plaintext : GoString) (e : KMS) (err : GoError)
    (h : EncryptFails env plaintext e err) :
    ∃ calls, ∀ rest, sealFrom env plaintext (e :: rest) = (some err, e :: rest, calls) := by
  rcases h with h | ⟨sess, h1, h2⟩
  · cases hc : createSession env e with
    | mk r calls =>
      rw [hc] at h
      simp only at h
      subst h
      exact ⟨calls, fun rest => by simp only [sealFrom, hc]⟩
  · cases hc : createSession env e with
    | mk r calls =>
      rw [hc] at h1
      simp only at h1
      subst h1
      exact ⟨calls ++ [Call.Encrypt sess plaintext e.Arn], fun rest => by
        simp only [sealFrom, hc, h2]⟩

theorem sealFrom_ok (env : Env Sess) (plaintext : GoString) (e : KMS) (out : GoString)
    (h : EncryptsTo env plaintext e out) :
    ∃ calls, ∀ rest, sealFrom env plaintext (e :: rest) =
      ((sealFrom env plaintext rest).1, stored env e out :: (sealFrom env plaintext rest).2.1,
        calls ++ (sealFrom env plaintext rest).2.2) := by
  obtain ⟨sess, h1, h2⟩ := h
  cases hc : createSession env e with
  | mk r calls =>
    rw [hc] at h1
    simp only at h1
    subst h1
    exact ⟨calls ++ [Call.Encrypt sess plaintext e.Arn], fun rest => by
      simp only [sealFrom, hc, h2]⟩

theorem sealFrom_first_failure (env : Env Sess) (plaintext : GoString) (out : KMS → GoString)
    (pre : List KMS) (e : KMS) (post : List KMS) (err : GoError)
    (hpre : ∀ x ∈ pre, EncryptsTo env plaintext x (out x))
    (he : EncryptFails env plaintext e err) :
    sealFrom env plaintext (pre ++ e :: post) =
      (some err, pre.map (fun x => stored env x (out x)) ++ e :: post,
        (sealFrom env plaintext (pre ++ [e])).2.2) := by
  induction pre with
  | nil =>
    obtain ⟨calls, hc⟩ := sealFrom_fail env plaintext e err he
    simp [hc]
  | cons x pre ih =>
    obtain ⟨calls, hc⟩ := sealFrom_ok env plaintext x (out x) (hpre x (List.mem_cons_self _ _))
    have ih2 := ih (fun y hy => hpre y (List.mem_cons_of_mem _ hy))
    simp only [List.cons_append, hc, ih2, List.map_cons]

theorem sealFrom_all (env : Env Sess) (plaintext : GoString) (out : KMS → GoString)
    (l : List KMS) (h : ∀ x ∈ l, EncryptsTo env plaintext x (out x)) :
    (sealFrom env plaintext l).1 = none ∧
      (sealFrom env plaintext l).2.1 = l.map (fun x => stored env x (out x)) := by
  induction l with
  | nil => simp [sealFrom]
  | cons x l ih =>
    obtain ⟨calls, hc⟩ := sealFrom_ok env plaintext x (out x) (h x (List.mem_cons_self _ _))
    have ih2 := ih (fun y hy => h y (List.mem_cons_of_mem _ hy))
    simp only [hc, ih2, List.map_cons, and_self]

/-- Claim C4: let `out x` be the ciphertext the backend returns for entry `x`.
If the entries `pre` before position `k = pre.length` all get a session and a
ciphertext and the entry `e` at position `k` fails with `err` (in session
creation, ARN validation included, or in the backend encrypt call), then
`EncryptKeys` returns exactly `err`, every entry before `k` has its
`EncryptedKey` replaced by the base64 encoding of its ciphertext, `e` and every
entry after it are unchanged, and the calls made are those of the run on the
entries up to `e` alone, so none is made for a later entry. If no entry fails,
`EncryptKeys` returns nil and every entry is replaced in that way. -/
theorem EncryptKeys_fail_fast (env : Env Sess) (plaintext : GoString) (out : KMS → GoString) :
    (∀ (pre : List KMS) (e : KMS) (post : List KMS) (err : GoError),
      (∀ x ∈ pre, EncryptsTo env plaintext x (out x)) → EncryptFails env plaintext e err →
        EncryptKeys env { KMS := pre ++ e :: post } plaintext =
          (some err, { KMS := pre.map (fun x => stored env x (out x)) ++ e :: post },
            (EncryptKeys env { KMS := pre ++ [e] } plaintext).2.2)) ∧
    (∀ entries : List KMS, (∀ x ∈ entries, EncryptsTo env plaintext x (out x)) →
      (EncryptKeys env { KMS := entries } plaintext).1 = none ∧
      (EncryptKeys env { KMS := entries } plaintext).2.1 =
        { KMS := entries.map (fun x => stored env x (out x)) }) := by
  constructor
  · intro pre e post err hpre he
    rw [EncryptKeys_eq_sealFrom, EncryptKeys_eq_sealFrom]
    simp only [sealFrom_first_failure env plaintext out pre e post err hpre he]
  · intro entries h
    rw [EncryptKeys_eq_sealFrom]
    obtain ⟨h1, h2⟩ := sealFrom_all env plaintext out entries h
    simp only [h1, h2, and_self]


/-- Instance of `EncryptKeys_fail_fast`: the second of three entries fails, and a
source of two entries that both succeed. -/
theorem EncryptKeys_fail_fast_witness :
    EncryptKeys flakyEnv { KMS := [goodEntry, downEntry, emptyBlob] } "secret".toList =
      (some (GoError.foreign "unavailable".toList),
        { KMS := [stored flakyEnv goodEntry "terces".toList, downEntry, emptyBlob] },
        (EncryptKeys flakyEnv { KMS := [goodEntry, downEntry] } "secret".toList).2.2) ∧
    (EncryptKeys flakyEnv { KMS := [goodEntry, emptyBlob] } "secret".toList).1 = none ∧
    (EncryptKeys flakyEnv { KMS := [goodEntry, emptyBlob] } "secret".toList).2.1 =
      { KMS := [stored flakyEnv goodEntry "terces".toList,
                stored flakyEnv emptyBlob "terces".toList] } :=
  ⟨(EncryptKeys_fail_fast flakyEnv "secret".toList (fun _ => "terces".toList)).1
      [goodEntry] downEntry [emptyBlob] (GoError.foreign "unavailable".toList)
      (fun x hx => by
        simp only [List.mem_singleton] at hx
        subst hx
        exact ⟨_, rfl, rfl⟩)
      (Or.inr ⟨_, rfl, rfl⟩),
   (EncryptKeys_fail_fast flakyEnv "secret".toList (fun _ => "terces".toList)).2
      [goodEntry, emptyBlob]
      (fun x hx => by
        simp only [List.mem_cons, List.mem_singleton, List.not_mem_nil, or_false] at hx
        rcases hx with rfl | rfl
        · exact ⟨_, rfl, rfl⟩
        · exact ⟨_, rfl, rfl⟩)⟩

theorem createSession_stored (env : Env Sess) (e : KMS) (out : GoString) :
    createSession env (stored env e out) = createSession env e := rfl

theorem createStsSession_ok (env : Env Sess) (k : KMS) (config : Config) (sess : Sess)
    (hNew : ∀ c, ∃ s, env.NewSession c = Except.ok s)
    (hHost : ∃ h, env.Hostname = Except.ok h)
    (hRole : ∀ s role name, ∃ c, env.AssumeRole s role name = Except.ok c) :
    ∃ s, (createStsSession env k config sess).1 = Except.ok s := by
  obtain ⟨host, hh⟩ := hHost
  obtain ⟨c, hc⟩ := hRole sess k.Role ("sops@".toList ++ host)
  obtain ⟨s2, hs2⟩ := hNew { config with Credentials := some c }
  exact ⟨s2, by simp only [createStsSession, hh, hc, hs2]⟩

theorem createSession_ok (env : Env Sess) (k : KMS) (harn : ArnShape k.Arn)
    (hNew : ∀ c, ∃ s, env.NewSession c = Except.ok s)
    (hHost : ∃ h, env.Hostname = Except.ok h)
    (hRole : ∀ s role name, ∃ c, env.AssumeRole s role name = Except.ok c) :
    ∃ s, (createSession env k).1 = Except.ok s := by
  cases hm : FindStringSubmatch arnRe k.Arn with
  | none => exact absurd harn ((FindStringSubmatch_none_iff k.Arn).mp hm)
  | some caps =>
    obtain ⟨s, hs⟩ := hNew { Region := caps.getD 1 [], Credentials := none }
    by_cases hrole : k.Role = []
    · exact ⟨s, by simp only [createSession, hm, hs, hrole, ne_eq, not_true_eq_false, if_false]⟩
    · obtain ⟨s2, hs2⟩ := createStsSession_ok env k
        { Region := caps.getD 1 [], Credentials := none } s hNew hHost hRole
      exact ⟨s2, by simp only [createSession, hm, hs, hrole, ne_eq, not_false_eq_true, if_true, hs2]⟩

/-- Claim C6: for every plaintext and every `KMSKeySource` with at least one
entry whose ARNs all have the shape of the pattern, over a healthy environment
(sessions, host name and role assumption succeed, every encrypt call succeeds,
every ciphertext that encrypt returns for the plaintext decrypts to it, and
base64-decoding the encoding of such a ciphertext gives it back), `EncryptKeys`
returns nil and `DecryptKeys` on the entries it left returns `(plaintext, nil)`. -/
theorem EncryptKeys_DecryptKeys (env : Env Sess) (ks : KMSKeySource) (plaintext : GoString)
    (hne : ks.KMS ≠ []) (harn : ∀ e ∈ ks.KMS, ArnShape e.Arn)
    (hNew : ∀ config, ∃ sess, env.NewSession config = Except.ok sess)
    (hHost : ∃ h, env.Hostname = Except.ok h)
    (hRole : ∀ sess role name, ∃ c, env.AssumeRole sess role name = Except.ok c)
    (hEnc : ∀ sess keyId, ∃ ct, env.Encrypt sess plaintext keyId = Except.ok ct)
    (hDec : ∀ sess sess2 keyId ct, env.Encrypt sess plaintext keyId = Except.ok ct →
      env.Decrypt sess2 ct = Except.ok plaintext)
    (hB64 : ∀ sess keyId ct, env.Encrypt sess plaintext keyId = Except.ok ct →
      env.DecodeString (env.EncodeToString ct) = Except.ok ct) :
    (EncryptKeys env ks plaintext).1 = none ∧
    (DecryptKeys env (EncryptKeys env ks plaintext).2.1).1 = (plaintext, none) := by
  have hall : ∀ x ∈ ks.KMS, ∃ o, EncryptsTo env plaintext x o := by
    intro x hx
    obtain ⟨s, hs⟩ := createSession_ok env x (harn x hx) hNew hHost hRole
    obtain ⟨ct, hct⟩ := hEnc s x.Arn
    exact ⟨ct, s, hs, hct⟩
  choose! out hout using hall
  obtain ⟨h1, h2⟩ := sealFrom_all env plaintext out ks.KMS hout
  rw [EncryptKeys_eq_sealFrom]
  refine ⟨h1, ?_⟩
  simp only [DecryptKeys, h2]
  cases hk : ks.KMS with
  | nil => exact absurd hk hne
  | cons e rest =>
    rw [List.map_cons]
    apply decryptLoop_hit
    obtain ⟨s, hs, hct⟩ := hout e (by rw [hk]; exact List.mem_cons_self _ _)
    exact ⟨out e, s, hB64 s e.Arn (out e) hct, by rw [createSession_stored]; exact hs,
      hDec s s e.Arn (out e) hct⟩

/-- Instance of `EncryptKeys_DecryptKeys`: two entries, the first with a role. -/
theorem EncryptKeys_DecryptKeys_witness :
    (EncryptKeys demoEnv { KMS := [downEntry, emptyBlob] } "secret".toList).1 = none ∧
    (DecryptKeys demoEnv
      (EncryptKeys demoEnv { KMS := [downEntry, emptyBlob] } "secret".toList).2.1).1 =
      ("secret".toList, none) :=
  EncryptKeys_DecryptKeys demoEnv { KMS := [downEntry, emptyBlob] } "secret".toList
    (by simp)
    (fun e he => by
      simp only [List.mem_cons, List.mem_singleton, List.not_mem_nil, or_false] at he
      rcases he with rfl | rfl
      · exact ⟨"eu-west-1".toList, "222222222222".toList, "down".toList,
          by decide, by decide, by decide, by decide, by decide, by decide, by decide⟩
      · exact ⟨"us-east-1".toList, "123456789012".toList, "abc-def".toList,
          by decide, by decide, by decide, by decide, by decide, by decide, by decide⟩)
    (fun config => ⟨config, rfl⟩)
    ⟨_, rfl⟩
    (fun _ _ _ => ⟨_, rfl⟩)
    (fun _ _ => ⟨_, rfl⟩)
    (fun _ _ _ ct h => by
      have hct : ct = "terces".toList := by cases h; rfl
      subst hct
      rfl)
    (fun _ _ ct h => by
      have hct : ct = "terces".toList := by cases h; rfl
      subst hct
      rfl)

/-! ## `Metadata` -/

theorem foldl_count (f : KeySource K → Nat) (l : List (KeySource K)) (init : Nat) :
    l.foldl (fun count ks => count + f ks) init = init + (l.map f).sum := by
  induction l generalizing init with
  | nil => simp
  | cons x l ih => simp [ih, Nat.add_assoc]

theorem MasterKeyCount_fst (m : Metadata K) :
    (MasterKeyCount m).1 = (m.KeySources.map (fun ks => ks.Keys.elems.length)).sum := by
  unfold MasterKeyCount
  rw [foldl_count (fun ks => ks.Keys.elems.length)]
  simp

/-- Claim C9: `MasterKeyCount` returns the sum over the KeySources of the number
of keys of each (0 when there is none) and leaves the `Metadata`, its KeySources
and their keys as they were. -/
theorem MasterKeyCount_eq_sum (m : Metadata K) :
    MasterKeyCount m = ((m.KeySources.map (fun ks => ks.Keys.elems.length)).sum, m) := by
  unfold MasterKeyCount
  rw [foldl_count (fun ks => ks.Keys.elems.length)]
  simp

theorem UpdateMasterKeys_eq_foldl (mk : MasterKey K σ) (m : Metadata K) (dataKey : GoString)
    (w : World K σ) :
    UpdateMasterKeys mk m dataKey w = (allKeys m).foldl (updateKey mk dataKey) w := by
  unfold UpdateMasterKeys allKeys
  generalize m.KeySources = l
  induction l generalizing w with
  | nil => rfl
  | cons ks l ih => simp [ih, List.foldl_append]

theorem foldl_updateKey_invoked (mk : MasterKey K σ) (dataKey : GoString) (l : List K)
    (w : World K σ) :
    (l.foldl (updateKey mk dataKey) w).invoked = w.invoked ++ l.map (fun k => (k, dataKey)) := by
  induction l generalizing w with
  | nil => simp
  | cons k l ih =>
    rw [List.foldl_cons, ih]
    cases h : (mk.EncryptIfNeeded k dataKey w.store).1 <;> simp [updateKey, h]

theorem foldl_updateKey_store (mk : MasterKey K σ) (dataKey : GoString) (l : List K)
    (w : World K σ) :
    (l.foldl (updateKey mk dataKey) w).store =
      l.foldl (fun s k => (mk.EncryptIfNeeded k dataKey s).2) w.store := by
  induction l generalizing w with
  | nil => simp
  | cons k l ih =>
    rw [List.foldl_cons, ih, List.foldl_cons]
    congr 1
    cases h : (mk.EncryptIfNeeded k dataKey w.store).1 <;> simp [updateKey, h]

/-- Claim C5: whatever `EncryptIfNeeded` does and whichever keys it fails on,
`UpdateMasterKeys` invokes it with the data key exactly once on every key, in
KeySource order and then key order, and the store ends as the successive
effects of all these invocations; the function has no error result, so a
failing key stops neither the keys after it nor the sweep. -/
theorem UpdateMasterKeys_sweep (mk : MasterKey K σ) (m : Metadata K) (dataKey : GoString)
    (w : World K σ) :
    (UpdateMasterKeys mk m dataKey w).invoked =
      w.invoked ++ (allKeys m).map (fun k => (k, dataKey)) ∧
    (UpdateMasterKeys mk m dataKey w).store =
      (allKeys m).foldl (fun s k => (mk.EncryptIfNeeded k dataKey s).2) w.store := by
  rw [UpdateMasterKeys_eq_foldl]
  exact ⟨foldl_updateKey_invoked mk dataKey _ w, foldl_updateKey_store mk dataKey _ w⟩

theorem deleteAt_length (arr : List K) (len i : Nat) (r : List K × Nat)
    (h : deleteAt arr len i = Except.ok r) : r.1.length = arr.length := by
  unfold deleteAt at h
  split at h
  · cases h
  · split at h
    · cases h
    · simp only [Except.ok.injEq] at h
      subst h
      simp only [List.length_append, List.length_take, List.length_drop]
      omega

theorem removeTargets_length (mk : MasterKey K σ) (st : σ) (i : Nat) (k : K) (keys : List K)
    (cur r : List K × Nat) (h : removeTargets mk st i k keys cur = Except.ok r) :
    r.1.length = cur.1.length := by
  induction keys generalizing cur with
  | nil =>
    simp only [removeTargets, Except.ok.injEq] at h
    rw [h]
  | cons k2 keys ih =>
    unfold removeTargets at h
    split at h
    · cases hd : deleteAt cur.1 cur.2 i with
      | error p => rw [hd] at h; cases h
      | ok cur2 =>
        rw [hd] at h
        rw [ih cur2 h, deleteAt_length _ _ _ _ hd]
    · exact ih cur h

theorem removeScan_length (mk : MasterKey K σ) (st : σ) (keys : List K) (todo i : Nat)
    (cur r : List K × Nat) (h : removeScan mk st keys todo i cur = Except.ok r) :
    r.1.length = cur.1.length := by
  induction todo generalizing i cur with
  | zero =>
    simp only [removeScan, Except.ok.injEq] at h
    rw [h]
  | succ todo ih =>
    unfold removeScan at h
    cases hk : cur.1[i]? with
    | none => rw [hk] at h; cases h
    | some k =>
      rw [hk] at h
      dsimp only at h
      cases ht : removeTargets mk st i k keys cur with
      | error p => rw [ht] at h; cases h
      | ok cur2 =>
        rw [ht] at h
        rw [ih (i + 1) cur2 h, removeTargets_length mk st i k keys cur cur2 ht]

theorem removeFromSource_length (mk : MasterKey K σ) (st : σ) (keys : List K)
    (ks ks2 : KeySource K) (h : removeFromSource mk st keys ks = Except.ok ks2) :
    ks2.Keys.elems.length = ks.Keys.elems.length := by
  unfold removeFromSource at h
  cases hs : removeScan mk st keys ks.Keys.elems.length 0
      (ks.Keys.elems ++ ks.Keys.spare, ks.Keys.elems.length) with
  | error p => simp only [hs] at h; cases h
  | ok cur =>
    simp only [hs, Except.ok.injEq] at h
    subst h
    have hl := removeScan_length mk st keys _ _ _ _ hs
    simp only [List.length_append] at hl
    simp only [List.length_take]
    omega

theorem removeSources_lengths (mk : MasterKey K σ) (st : σ) (keys : List K)
    (l l2 : List (KeySource K)) (h : removeSources mk st keys l = Except.ok l2) :
    l2.map (fun ks => ks.Keys.elems.length) = l.map (fun ks => ks.Keys.elems.length) := by
  induction l generalizing l2 with
  | nil =>
    simp only [removeSources, Except.ok.injEq] at h
    subst h
    rfl
  | cons ks l ih =>
    unfold removeSources at h
    cases h1 : removeFromSource mk st keys ks with
    | error p => rw [h1] at h; cases h
    | ok ks2 =>
      rw [h1] at h
      cases h2 : removeSources mk st keys l with
      | error p => rw [h2] at h; cases h
      | ok rest2 =>
        rw [h2] at h
        simp only [Except.ok.injEq] at h
        subst h
        simp only [List.map_cons, ih rest2 h2, removeFromSource_length mk st keys ks ks2 h1]

/-- Whenever `RemoveMasterKeys` completes, the receiver has as many keys as before. -/
theorem RemoveMasterKeys_count (mk : MasterKey K σ) (st : σ) (m m2 : Metadata K) (keys : List K)
    (h : RemoveMasterKeys mk st m keys = Except.ok m2) :
    (MasterKeyCount m2).1 = (MasterKeyCount m).1 := by
  unfold RemoveMasterKeys at h
  cases hs : removeSources mk st keys m.KeySources with
  | error p => rw [hs] at h; cases h
  | ok sources =>
    rw [hs] at h
    simp only [Except.ok.injEq] at h
    subst h
    rw [MasterKeyCount_fst, MasterKeyCount_fst]
    simp only [removeSources_lengths mk st keys _ _ hs]

/-- Claim C1 on the code: after `RemoveMasterKeys` with the only key of a
KeySource as target, the `Metadata` still shows that key and `MasterKeyCount` is
still 1, where the stable filter is empty; with the keys 1, 1, 2 and target 1
the `Metadata` shows 1, 2, 2 and counts 3, where the stable filter is 2. -/
theorem RemoveMasterKeys_keeps_removed :
    (RemoveMasterKeys demoKeys 0 (demoMetadata [[1]]) [1]).map
        (fun m => (m.KeySources.map (fun ks => ks.Keys.elems), (MasterKeyCount m).1)) =
      Except.ok ([[1]], 1) ∧
    survivors demoKeys 0 [1] [1] = [] ∧
    (RemoveMasterKeys demoKeys 0 (demoMetadata [[1, 1, 2]]) [1]).map
        (fun m => (m.KeySources.map (fun ks => ks.Keys.elems), (MasterKeyCount m).1)) =
      Except.ok ([[1, 2, 2]], 3) ∧
    survivors demoKeys 0 [1] [1, 1, 2] = [2] := by
  refine ⟨rfl, by decide, rfl, by decide⟩

/-- Claim C10 on the code: with two keys of the same identity and that identity
as target, `ks.Keys[i+1:]` is evaluated at `i = 1` on a slice of length 1 and
`RemoveMasterKeys` panics with `slice bounds out of range [2:1]`; with one key
and its identity twice among the targets it panics with `[1:0]`. -/
theorem RemoveMasterKeys_panics :
    (RemoveMasterKeys demoKeys 0 (demoMetadata [[1, 1]]) [1]).map (fun _ => ()) =
      Except.error (Panic.sliceRange 2 1) ∧
    (RemoveMasterKeys demoKeys 0 (demoMetadata [[1]]) [1, 1]).map (fun _ => ()) =
      Except.error (Panic.sliceRange 1 0) := by
  exact ⟨rfl, rfl⟩

end Sops
